import Mathlib

/-!
Verification of the msmarco-passage learning-to-rank experiment pipeline
(`msmarco-passage_exp/test.py` and `pyserini/ltr/_base.py`).

Shallow embedding conventions:
* pandas `DataFrame` rows become Lean structures; a frame is a `List` of rows.
* `groupby('qid')` iterates groups with keys in ascending order, each group
  keeping the original relative row order; it is embedded as filtering the
  row list by each key of the ascending deduplicated key list.
* `sort_values(..., kind='mergesort')` is a stable sort and is embedded as
  `List.mergeSort` with the corresponding boolean relation.
* floating-point scores are modelled as rationals (`Rat`); int32 ids and
  labels as `Int`.
* a Python `assert` failure or unhandled exception is modelled by `Option`
  (`none` = the run aborts).
-/

/-- One row of the scored dev matrix consumed by `eval_mrr`:
`(qid, pid, rel, score)`. -/
structure SRow where
  qid : Int
  pid : Int
  rel : Int
  score : Rat
  deriving Repr, DecidableEq

/-- The comparison used by
`group.sort_values('score', ascending=False, kind='mergesort')`:
descending by score, stable on ties. -/
def scoreDescLe (a b : SRow) : Bool := decide (b.score ≤ a.score)

/-- Ascending comparison on integers, for `groupby('qid')` key ordering and
`sort_values(by='qid', kind='mergesort')`. -/
def intLe (a b : Int) : Bool := decide (a ≤ b)

/-- The keys of `df.groupby('qid')` in iteration order: the distinct `qid`
values in ascending order. -/
def sortedQids (l : List SRow) : List Int :=
  ((l.map (·.qid)).dedup).mergeSort intLe

/-- The rows of one `groupby('qid')` group, in original relative order. -/
def groupRows (l : List SRow) (q : Int) : List SRow :=
  l.filter (fun r => r.qid = q)

/-- The tie epsilon `1e-8` of `eval_mrr`. -/
def tieEps : Rat := 1 / 100000000

/-- The body of `eval_mrr`'s inner `for` loop over one query group's rows
(already in descending-score order).  Arguments mirror the Python local
state: remaining rows, `rank`, `prev_score`, `score_tie_counter` delta and
whether `qid` was added to `score_tie_query`.  `glen` is `len(group)`.
Returns `(recorded MRR value if any, tie increments, tie flag)`. -/
def groupWalk (glen : Nat) : List SRow → Nat → Option Rat → Nat → Bool →
    Option Rat × Nat × Bool
  | [], _, _, ties, tied => (none, ties, tied)
  | t :: rest, rank, prev, ties, tied =>
    let tie : Bool := match prev with
      | some p => decide (|t.score - p| < tieEps)
      | none => false
    let ties' := if tie then ties + 1 else ties
    let tied' := tied || tie
    let rank' := rank + 1
    if t.rel > 0 then (some (1 / (rank' : Rat)), ties', tied')
    else if rank' = 10 ∨ rank' = glen then (some 0, ties', tied')
    else groupWalk glen rest rank' (some t.score) ties' tied'

/-- Evaluation of one query group in `eval_mrr`: stable-sort the rows by
descending score and walk them. -/
def evalGroup (rows : List SRow) : Option Rat × Nat × Bool :=
  groupWalk rows.length (rows.mergeSort scoreDescLe) 0 none 0 false

/-- The outer `for qid, group in dev_data.groupby('qid')` loop of
`eval_mrr`, accumulating `score_tie_counter`, `score_tie_query` (as the
list of its elements in first-insertion order) and the `MRR` list. -/
def evalLoop (data : List SRow) : List Int → Nat → List Int → List Rat →
    Nat × List Int × List Rat
  | [], ties, tq, mrr => (ties, tq, mrr)
  | q :: qs, ties, tq, mrr =>
    let r := evalGroup (groupRows data q)
    evalLoop data qs (ties + r.2.1)
      (if r.2.2 then tq ++ [q] else tq)
      (mrr ++ (match r.1 with | some v => [v] | none => []))

/-- The record returned by `eval_mrr` (the `score_tie` diagnostic string is
kept as its two numeric ingredients). -/
structure MrrResult where
  tieCount : Nat
  tieQueries : List Int
  mrrList : List Rat
  mrr_10 : Rat
  deriving Repr, DecidableEq

/-- `eval_mrr(dev_data)`.  `none` models the per-group
`assert len(group['pid']) == len(set(group['pid']))` failing.
`mrr_10` is `np.mean(MRR)` (sum over length). -/
def eval_mrr (data : List SRow) : Option MrrResult :=
  if (sortedQids data).all
      (fun q => decide (((groupRows data q).map (·.pid)).Nodup)) then
    let r := evalLoop data (sortedQids data) 0 [] []
    some { tieCount := r.1, tieQueries := r.2.1, mrrList := r.2.2,
           mrr_10 := r.2.2.sum / (r.2.2.length : Rat) }
  else none

/-- Spec-side: the 0-based position of the first row with relevance `> 0`. -/
def firstRelPos : List SRow → Option Nat
  | [] => none
  | t :: rest =>
    if t.rel > 0 then some 0 else (firstRelPos rest).map (· + 1)

/-- Spec-side: the per-query value the spec prescribes for a group whose
descending-score order is `l`: `1/rank` of the first relevant row if it
occurs by rank 10, else `0`. -/
def specRR (l : List SRow) : Rat :=
  match firstRelPos l with
  | some i => if i + 1 ≤ 10 then 1 / ((i + 1 : Nat) : Rat) else 0
  | none => 0

/-- Spec-side: the number of rows `eval_mrr`'s inner loop actually walks in
a non-empty group in descending-score order `l`: it stops at the first
relevant row, at rank 10, or at the end of the group, whichever is first. -/
def walkedLen (l : List SRow) : Nat :=
  match firstRelPos l with
  | some i => min (i + 1) (min 10 l.length)
  | none => min 10 l.length

/-- Spec-side: adjacent pairs whose scores differ by less than `tieEps`,
seeded with an optional previous score (mirroring `prev_score`). -/
def countTiesFrom : Option Rat → List SRow → Nat
  | _, [] => 0
  | prev, t :: rest =>
    (match prev with
     | some p => if |t.score - p| < tieEps then 1 else 0
     | none => 0) + countTiesFrom (some t.score) rest

/-- Spec-side: the number of adjacent score-tie pairs in a row list. -/
def countClosePairs (l : List SRow) : Nat := countTiesFrom none l

/-- Spec-side, rank-generalized version of `walkedLen`: how many more rows
the walk visits when `rank` rows were already consumed. -/
def walkedFrom (rank : Nat) (l : List SRow) : Nat :=
  match firstRelPos l with
  | some i => min (i + 1) (min (10 - rank) l.length)
  | none => min (10 - rank) l.length

/-! ## The batch assembler `extract` -/

/-- One input row of the judged frame fed to `extract`:
`(qid, pid, rel)`. -/
structure QRow where
  qid : Int
  pid : Int
  rel : Int
  deriving Repr, DecidableEq

/-- One entry of the parsed JSON returned by `fe.get_result(qid)`:
`{'pid': ..., 'features': [...]}`. -/
structure DocEntry where
  pid : Int
  features : List Rat
  deriving Repr, DecidableEq

/-- One row of the matrices assembled by `extract`: the `info` columns
`(qid, pid, rel)` plus the parallel `feature` row. -/
structure ORow where
  qid : Int
  pid : Int
  rel : Int
  features : List Rat
  deriving Repr, DecidableEq

/-- `groupby('qid')` keys for the input frame of `extract`. -/
def sortedQidsQ (l : List QRow) : List Int :=
  ((l.map (·.qid)).dedup).mergeSort intLe

/-- One `groupby('qid')` group of the input frame of `extract`. -/
def groupRowsQ (l : List QRow) (q : Int) : List QRow :=
  l.filter (fun r => r.qid = q)

/-- `groupby('qid')` keys for the output frame of `extract`. -/
def sortedQidsO (l : List ORow) : List Int :=
  ((l.map (·.qid)).dedup).mergeSort intLe

/-- The `qidpid2rel[qid]` dictionary built by `extract` for query `q`:
association list `(pid, rel)` in the group's row order. -/
def relPairs (df : List QRow) (q : Int) : List (Int × Int) :=
  (groupRowsQ df q).map (fun r => (r.pid, r.rel))

/-- Dictionary lookup `qidpid2rel[qid][pid]` (first binding wins; the
`assert` guarantees there are no duplicate keys). -/
def relLookup (ps : List (Int × Int)) (pid : Int) : Option Int :=
  (ps.find? (fun p => p.1 = pid)).map (·.2)

/-- The rows written for the documents of one retrieved query, in the
order the result returns them: `for doc in fe.get_result(qid)` writes
`(qid, pid, qidpid2rel[qid][pid])` plus the feature row.  A `pid` the job
never asked for raises `KeyError` (`none`). -/
def rowsFor (ps : List (Int × Int)) (q : Int) :
    List DocEntry → Option (List ORow)
  | [] => some []
  | d :: ds =>
    match relLookup ps d.pid, rowsFor ps q ds with
    | some rel, some rest => some (⟨q, d.pid, rel, d.features⟩ :: rest)
    | _, _ => none

/-- The rows one query contributes inside a flush. -/
def mkRows (oracle : Int → List DocEntry) (df : List QRow) (q : Int) :
    Option (List ORow) :=
  rowsFor (relPairs df q) q (oracle q)

/-- The inner `for qid in fetch_later` retrieval loop of a flush: rows of
all pending queries written sequentially, in submission order. -/
def flushRows (oracle : Int → List DocEntry) (df : List QRow) :
    List Int → Option (List ORow)
  | [] => some []
  | q :: qs =>
    match mkRows oracle df q, flushRows oracle df qs with
    | some rows, some rest => some (rows ++ rest)
    | _, _ => none

/-- `fetch_later` is flushed every 10000 queries, and once more at end of
input; this groups the submitted query ids into those flush batches. -/
def chunks10000 : List Int → List (List Int)
  | [] => []
  | x :: xs => (x :: xs).take 10000 :: chunks10000 ((x :: xs).drop 10000)
  termination_by l => l.length
  decreasing_by simp; omega

/-- One flush: allocate `np.zeros((need_rows, _))`, write the retrieved
rows sequentially, and wrap the matrix as a frame.  Rows never written
stay zero; writing past `need_rows` raises `IndexError` (`none`). -/
def flushChunk (oracle : Int → List DocEntry) (df : List QRow)
    (featureNames : List String) (chunk : List Int) : Option (List ORow) :=
  let needRows := (chunk.map (fun q => (relPairs df q).length)).sum
  (flushRows oracle df chunk).bind (fun w =>
    if needRows < w.length then none
    else some (w ++ List.replicate (needRows - w.length)
      ⟨0, 0, 0, List.replicate featureNames.length 0⟩))

/-- The outer loop's accumulation of flushed pieces (`df_pieces`). -/
def flushAll (oracle : Int → List DocEntry) (df : List QRow)
    (featureNames : List String) :
    List (List Int) → Option (List (List ORow))
  | [] => some []
  | c :: cs =>
    match flushChunk oracle df featureNames c,
        flushAll oracle df featureNames cs with
    | some p, some ps => some (p :: ps)
    | _, _ => none

/-- `extract(df, queries, fe)`.  The worker pool behind
`fe.lazy_extract`/`fe.get_result` is the external collaborator `oracle`
(what `get_result` returns for each query id).  Returns the final sorted
frame `data`, the `group` counts, and — for observability — the pre-sort
concatenation of the flushed pieces, the submission-order trace of
`lazy_extract` calls and the retrieval-order trace of `get_result` calls.
`none` models the duplicate-`pid` `assert` failing, a `KeyError` or
`IndexError` in a flush, or `pd.concat` of zero pieces raising. -/
def extract (oracle : Int → List DocEntry) (df : List QRow)
    (featureNames : List String) :
    Option (List ORow × List Nat × List ORow × List Int × List Int) :=
  let qids := sortedQidsQ df
  if qids.all (fun q => decide (((groupRowsQ df q).map (·.pid)).Nodup)) then
    let chunks := chunks10000 qids
    (flushAll oracle df featureNames chunks).bind (fun pieces =>
      if pieces.isEmpty then none
      else
        let raw := pieces.flatten
        let data := raw.mergeSort (fun a b => intLe a.qid b.qid)
        let group := (sortedQidsO data).map
          (fun q => (data.filter (fun r => r.qid = q)).length)
        some (data, group, raw, qids, chunks.flatten))
  else none

/-! ## The cache layer -/

/-- `hash_df(df) = hex(pd.util.hash_pandas_object(df).sum().astype(np.uint64))`.
`pd.util.hash_pandas_object` computes one `uint64` digest per row from that
row's index labels and values only; it is the external collaborator
`rowHash`.  The digests are summed with `uint64` wrap-around. -/
def hash_df (rowHash : QRow → Nat) (df : List QRow) : Nat :=
  ((df.map rowHash).sum) % (2 ^ 64)

/-- A registered feature as the cache layer sees it: the name reported by
`getName()` plus the configuration parameters passed at construction
(e.g. `BM25(k1, b)`). -/
structure Feature where
  name : String
  params : List Rat
  deriving Repr, DecidableEq

/-- Comparison used by Python `sorted` on strings. -/
def strLe (a b : String) : Bool := decide (a ≤ b)

/-- `hash_fe(fe) = md5(','.join(sorted(fe.feature_names())))`.  `md5` is the
external digest collaborator. -/
def hash_fe (md5 : String → String) (featureNames : List String) : String :=
  md5 (String.intercalate "," (featureNames.mergeSort strLe))

/-- The feature-name list of a feature set, in registration order
(`FeatureExtractor.feature_name`). -/
def featureNamesOf (fs : List Feature) : List String := fs.map (·.name)

/-! ## `data_loader` and `dev_data_loader` -/

/-- The result bundle cached by `data_loader`
(`{'data', 'group', 'df_hash', 'jar_hash', 'fe_hash'}`). -/
structure ExtractedObj where
  data : List ORow
  group : List Nat
  df_hash : Nat
  jar_hash : String
  fe_hash : String

/-- `data_loader(task, df, queries, fe)`.  The pickle files on disk are the
external key-value collaborator `cache` (keyed by the file name
`f'{task}_{df_hash}_{jar_hash}_{fe_hash}.pickle'`, modelled as the key
tuple); `extractFn` stands for the batch-assembler call
`extract(df, queries, fe)`; `jarHash`/`feHash` are the other two hash
inputs of the composite key.  Unknown tasks raise
`Exception('unknown parameters')`, modelled as `Except.error`. -/
def data_loader (cache : String × Nat × String × String → Option ExtractedObj)
    (extractFn : List QRow → List ORow × List Nat)
    (rowHash : QRow → Nat) (jarHash feHash : String)
    (task : String) (df : List QRow) : Except String ExtractedObj :=
  let dfHash := hash_df rowHash df
  match cache (task, dfHash, jarHash, feHash) with
  | some res => .ok res
  | none =>
    if task = "train" ∨ task = "dev" then
      let r := extractFn df
      .ok ⟨r.1, r.2, dfHash, jarHash, feHash⟩
    else .error "unknown parameters"

/-- `dev_data_loader(task)`.  The pickle file `f'dev_{task}.pickle'` is the
`cache` collaborator; `readTask` stands for the per-task CSV reading and
qrel merging done on a cache miss.  Unknown tasks raise
`Exception('unknown parameters')`. -/
def dev_data_loader (cache : String → Option (List QRow))
    (readTask : String → List QRow) (task : String) :
    Except String (List QRow) :=
  match cache task with
  | some dev => .ok dev
  | none =>
    if task = "rerank" ∨ task = "anserini" ∨ task = "pygaggle" then
      .ok (readTask task)
    else .error "unknown parameters"

/-! ## The feature set and job dispatcher (`pyserini/ltr/_base.py`) -/

/-- The job record built by `FeatureExtractor.lazy_extract` in
`pyserini/ltr/_base.py`:
`input = {'qid': qid, 'queryTokens': query_tokens, 'docIds': doc_ids}`.
It carries a single token list. -/
structure Job where
  qid : String
  queryTokens : List String
  docIds : List String
  deriving Repr, DecidableEq

/-- `FeatureExtractor.lazy_extract(self, qid, query_tokens, doc_ids)` as
checked in at `pyserini/ltr/_base.py`: three data arguments, one token
list, producing the submitted job record. -/
def lazy_extract (qid : String) (query_tokens : List String)
    (doc_ids : List String) : Job :=
  ⟨qid, query_tokens, doc_ids⟩

/-- The Python-side state of a `FeatureExtractor`: the registered feature
names in registration order, plus whether any job has been submitted.
Modelled from the spec: the frozen/unfrozen phase lives in the Java
`FeatureExtractorUtils` behind `self.utils`, which is not part of the
Python sources; the spec says the feature set "freezes once extraction
begins". -/
structure FeatureExtractorState where
  feature_name : List String
  submitted : Bool
  deriving Repr, DecidableEq

/-- Modelled from the spec: `FeatureExtractor.add` appends the feature's
name (`self.feature_name.append(pyclass.name())`), and "fails with a
`ConfigurationError` if called after the first job submission" — the
check itself is inside the Java `FeatureExtractorUtils.add`, which is not
part of the Python sources. -/
def FeatureExtractor.add (st : FeatureExtractorState) (f : Feature) :
    Except String FeatureExtractorState :=
  if st.submitted then .error "ConfigurationError"
  else .ok { st with feature_name := st.feature_name ++ [f.name] }

/-- `FeatureExtractor.feature_names(self)`: returns `self.feature_name`. -/
def FeatureExtractor.feature_names (st : FeatureExtractorState) :
    List String :=
  st.feature_name

/-- Registering a list of features one after another, starting from a
state, stopping at the first failure. -/
def FeatureExtractor.addAll (st : FeatureExtractorState) :
    List Feature → Except String FeatureExtractorState
  | [] => .ok st
  | f :: fs =>
    match FeatureExtractor.add st f with
    | .ok st' => FeatureExtractor.addAll st' fs
    | .error e => .error e

/-- A freshly constructed `FeatureExtractor` (`self.feature_name = []`,
nothing submitted yet). -/
def FeatureExtractor.init : FeatureExtractorState := ⟨[], false⟩

/-! ## General helper lemmas about the stable sorts -/

/-- Stability of `mergeSort`, stated through filters: the subsequence of
elements of any comparison-equivalence class is untouched by the sort. -/
theorem filter_mergeSort_eq {α : Type} (le : α → α → Bool)
    (trans : ∀ a b c : α, le a b → le b c → le a c)
    (total : ∀ a b : α, le a b || le b a)
    (p : α → Bool) (hp : ∀ a b : α, p a → p b → le a b) (l : List α) :
    (l.mergeSort le).filter p = l.filter p := by
  have hpw : (l.filter p).Pairwise (fun a b => le a b) :=
    List.pairwise_of_forall_mem_list (fun a ha b hb =>
      hp a b (List.of_mem_filter ha) (List.of_mem_filter hb))
  have h1 : List.Sublist (l.filter p) (l.mergeSort le) :=
    List.sublist_mergeSort trans total hpw (List.filter_sublist l)
  have h2 : List.Sublist (l.filter p) ((l.mergeSort le).filter p) := by
    have h := h1.filter p
    simp only [List.filter_filter, Bool.and_self] at h
    exact h
  have h3 : ((l.mergeSort le).filter p).length = (l.filter p).length :=
    ((List.mergeSort_perm l le).filter p).length_eq
  exact (h2.eq_of_length h3.symm).symm

/-- A list that is sorted on `r.qid` splits as the rows below `q`,
followed by the rows at `q`, followed by the rows above `q`. -/
theorem qidSorted_partition : ∀ (l : List ORow),
    l.Pairwise (fun a b => a.qid ≤ b.qid) → ∀ q : Int,
    l = l.filter (fun r => decide (r.qid < q)) ++
        l.filter (fun r => r.qid = q) ++
        l.filter (fun r => decide (q < r.qid))
  | [], _, _ => by simp
  | t :: rest, hpw, q => by
    have hle : ∀ r ∈ rest, t.qid ≤ r.qid :=
      fun r hr => List.rel_of_pairwise_cons hpw hr
    have ih := qidSorted_partition rest hpw.of_cons q
    rcases lt_trichotomy t.qid q with h | h | h
    · rw [List.filter_cons_of_pos (by simpa using h),
          List.filter_cons_of_neg (by simp; omega),
          List.filter_cons_of_neg (by simp; omega)]
      simp only [List.cons_append]
      exact congrArg (t :: ·) ih
    · have hnil : rest.filter (fun r => decide (r.qid < q)) = [] := by
        rw [List.filter_eq_nil_iff]
        intro a ha
        have := hle a ha
        simp only [decide_eq_true_eq]
        omega
      rw [List.filter_cons_of_neg (by simp; omega),
          List.filter_cons_of_pos (by simpa using h),
          List.filter_cons_of_neg (by simp; omega), hnil]
      rw [hnil] at ih
      simp only [List.nil_append] at ih ⊢
      simp only [List.cons_append]
      exact congrArg (t :: ·) ih
    · have hnil1 : rest.filter (fun r => decide (r.qid < q)) = [] := by
        rw [List.filter_eq_nil_iff]
        intro a ha
        have := hle a ha
        simp only [decide_eq_true_eq]
        omega
      have hnil2 : rest.filter (fun r => decide (r.qid = q)) = [] := by
        rw [List.filter_eq_nil_iff]
        intro a ha
        have := hle a ha
        simp only [decide_eq_true_eq]
        omega
      rw [List.filter_cons_of_neg (by simp; omega),
          List.filter_cons_of_neg (by simp; omega),
          List.filter_cons_of_pos (by simpa using h), hnil1, hnil2]
      rw [hnil1, hnil2] at ih
      simp only [List.nil_append] at ih ⊢
      exact congrArg (t :: ·) ih

/-- A `qid`-sorted list is the concatenation of its per-`qid` blocks taken
along any strictly increasing key list covering all its keys. -/
theorem qidSorted_flatMap_blocks : ∀ (ks : List Int) (m : List ORow),
    m.Pairwise (fun a b => a.qid ≤ b.qid) →
    ks.Pairwise (· < ·) →
    (∀ r ∈ m, r.qid ∈ ks) →
    m = ks.flatMap (fun q => m.filter (fun r => r.qid = q))
  | [], m, _, _, hcov => by
    cases m with
    | nil => simp
    | cons t rest => exact absurd (hcov t (by simp)) (by simp)
  | k :: ks', m, hm, hks, hcov => by
    have hks' : ∀ q ∈ ks', k < q :=
      fun q hq => List.rel_of_pairwise_cons hks hq
    have hlow : m.filter (fun r => decide (r.qid < k)) = [] := by
      rw [List.filter_eq_nil_iff]
      intro r hr
      rcases List.mem_cons.mp (hcov r hr) with h | h
      · simp only [decide_eq_true_eq]
        omega
      · have := hks' _ h
        simp only [decide_eq_true_eq]
        omega
    have hpart := qidSorted_partition m hm k
    rw [hlow, List.nil_append] at hpart
    set rest := m.filter (fun r => decide (k < r.qid)) with hrest
    have hmeq : m = m.filter (fun r => r.qid = k) ++ rest := hpart
    have hrest_sorted : rest.Pairwise (fun a b => a.qid ≤ b.qid) :=
      hm.filter _
    have hrest_cov : ∀ r ∈ rest, r.qid ∈ ks' := by
      intro r hr
      have h1 : k < r.qid := by
        have := List.of_mem_filter hr
        simpa using this
      have h2 := hcov r (List.mem_of_mem_filter hr)
      rcases List.mem_cons.mp h2 with h | h
      · omega
      · exact h
    have ih := qidSorted_flatMap_blocks ks' rest hrest_sorted
      hks.of_cons hrest_cov
    have hsame : ∀ q ∈ ks',
        m.filter (fun r => r.qid = q) = rest.filter (fun r => r.qid = q) := by
      intro q hq
      conv_lhs => rw [hmeq]
      rw [List.filter_append]
      have : (m.filter (fun r => r.qid = k)).filter (fun r => r.qid = q)
          = [] := by
        rw [List.filter_filter, List.filter_eq_nil_iff]
        intro r _
        have hkq := hks' q hq
        simp only [Bool.and_eq_true, decide_eq_true_eq]
        omega
      rw [this, List.nil_append]
    rw [List.flatMap_cons]
    conv_lhs => rw [hmeq]
    rw [ih]
    congr 1
    rw [List.flatMap_def, List.flatMap_def]
    exact congrArg List.flatten
      (List.map_congr_left (fun q hq => (hsame q hq).symm))


/-! ## Lemmas about `eval_mrr`'s inner walk -/

theorem walkedLen_eq_walkedFrom (l : List SRow) :
    walkedLen l = walkedFrom 0 l := rfl

/-- Rank-generalized value of the inner walk: the recorded value is `1/rank`
of the first relevant row if that rank is at most 10, else `0`. -/
theorem groupWalk_val : ∀ (l : List SRow) (rank glen : Nat)
    (prev : Option Rat) (ties : Nat) (tied : Bool),
    rank + l.length = glen → rank < 10 → l ≠ [] →
    (groupWalk glen l rank prev ties tied).1 =
      some (match firstRelPos l with
        | some i => if rank + i + 1 ≤ 10
            then (1 : Rat) / ((rank + i + 1 : Nat) : Rat) else 0
        | none => 0)
  | [], _, _, _, _, _, _, _, hne => absurd rfl hne
  | t :: rest, rank, glen, prev, ties, tied, hinv, hrank, _ => by
    simp only [groupWalk]
    by_cases hrel : t.rel > 0
    · rw [if_pos hrel]
      have h0 : firstRelPos (t :: rest) = some 0 := by
        simp [firstRelPos, hrel]
      rw [h0]
      simp only [Nat.add_zero]
      rw [if_pos (by omega)]
    · rw [if_neg hrel]
      have hshift : firstRelPos (t :: rest) =
          (firstRelPos rest).map (· + 1) := by
        simp [firstRelPos, hrel]
      by_cases hstop : rank + 1 = 10 ∨ rank + 1 = glen
      · rw [if_pos hstop]
        by_cases hg : rank + 1 = glen
        · have hrest : rest = [] := by
            have : rest.length = 0 := by
              simp only [List.length_cons] at hinv
              omega
            exact List.eq_nil_of_length_eq_zero this
          subst hrest
          rw [hshift]
          simp [firstRelPos]
        · have h10 : rank + 1 = 10 := by tauto
          rw [hshift]
          cases he : firstRelPos rest with
          | none => simp
          | some j =>
            have hgt : ¬ (rank + (j + 1) + 1 ≤ 10) := by omega
            simp [hgt]
      · rw [if_neg hstop]
        push_neg at hstop
        have hlen : rest ≠ [] := by
          intro h
          subst h
          simp only [List.length_cons, List.length_nil] at hinv
          omega
        have ih := groupWalk_val rest (rank + 1) glen (some t.score)
          (if (match prev with
               | some p => decide (|t.score - p| < tieEps)
               | none => false) then ties + 1 else ties)
          (tied || (match prev with
               | some p => decide (|t.score - p| < tieEps)
               | none => false))
          (by simp only [List.length_cons] at hinv; omega)
          (by omega) hlen
        rw [ih, hshift]
        cases he : firstRelPos rest with
        | none => simp
        | some j =>
          have harith : rank + 1 + j + 1 = rank + (j + 1) + 1 := by omega
          simp [harith]

theorem countTiesFrom_cons (prev : Option Rat) (t : SRow) (X : List SRow) :
    countTiesFrom prev (t :: X) =
      (if (match prev with
           | some p => decide (|t.score - p| < tieEps)
           | none => false) then 1 else 0) +
        countTiesFrom (some t.score) X := by
  cases prev with
  | none => simp [countTiesFrom]
  | some p => by_cases hc : |t.score - p| < tieEps <;> simp [countTiesFrom, hc]

/-- Rank-generalized tie bookkeeping of the inner walk: the counter grows by
exactly the number of adjacent sub-epsilon score pairs among the walked
rows, and the per-query tie flag records whether that number is positive. -/
theorem groupWalk_ties : ∀ (l : List SRow) (rank glen : Nat)
    (prev : Option Rat) (ties : Nat) (tied : Bool),
    rank + l.length = glen → rank < 10 →
    (groupWalk glen l rank prev ties tied).2.1 =
      ties + countTiesFrom prev (l.take (walkedFrom rank l)) ∧
    (groupWalk glen l rank prev ties tied).2.2 =
      (tied || decide (0 < countTiesFrom prev (l.take (walkedFrom rank l))))
  | [], rank, glen, prev, ties, tied, _, _ => by
    simp [groupWalk, countTiesFrom]
  | t :: rest, rank, glen, prev, ties, tied, hinv, hrank => by
    simp only [groupWalk]
    by_cases hrel : t.rel > 0
    · rw [if_pos hrel]
      have h0 : firstRelPos (t :: rest) = some 0 := by
        simp [firstRelPos, hrel]
      have hw : walkedFrom rank (t :: rest) = 1 := by
        simp only [walkedFrom, h0, List.length_cons]
        omega
      rw [hw, List.take_succ_cons, List.take_zero, countTiesFrom_cons]
      simp only [countTiesFrom]
      cases hb : (match prev with
           | some p => decide (|t.score - p| < tieEps)
           | none => false) <;> simp [hb]
    · rw [if_neg hrel]
      have hshift : firstRelPos (t :: rest) =
          (firstRelPos rest).map (· + 1) := by
        simp [firstRelPos, hrel]
      by_cases hstop : rank + 1 = 10 ∨ rank + 1 = glen
      · rw [if_pos hstop]
        have hw : walkedFrom rank (t :: rest) = 1 := by
          by_cases hg : rank + 1 = glen
          · have hrest : rest = [] := by
              have : rest.length = 0 := by
                simp only [List.length_cons] at hinv
                omega
              exact List.eq_nil_of_length_eq_zero this
            subst hrest
            simp [walkedFrom, hshift, firstRelPos, hrel]
            omega
          · have h10 : rank + 1 = 10 := by tauto
            cases he : firstRelPos rest with
            | none =>
              simp only [walkedFrom, hshift, he, Option.map_none',
                List.length_cons]
              omega
            | some j =>
              simp only [walkedFrom, hshift, he, Option.map_some',
                List.length_cons]
              omega
        rw [hw, List.take_succ_cons, List.take_zero, countTiesFrom_cons]
        simp only [countTiesFrom]
        cases hb : (match prev with
             | some p => decide (|t.score - p| < tieEps)
             | none => false) <;> simp [hb]
      · rw [if_neg hstop]
        push_neg at hstop
        have hlen : rest.length ≥ 1 := by
          rcases rest with _ | ⟨a, b⟩
          · simp only [List.length_cons, List.length_nil] at hinv
            omega
          · simp
        have hw : walkedFrom rank (t :: rest) =
            walkedFrom (rank + 1) rest + 1 := by
          cases he : firstRelPos rest with
          | none =>
            simp only [walkedFrom, hshift, he, Option.map_none',
              List.length_cons]
            omega
          | some j =>
            simp only [walkedFrom, hshift, he, Option.map_some',
              List.length_cons]
            omega
        have ih := groupWalk_ties rest (rank + 1) glen (some t.score)
          (if (match prev with
               | some p => decide (|t.score - p| < tieEps)
               | none => false) then ties + 1 else ties)
          (tied || (match prev with
               | some p => decide (|t.score - p| < tieEps)
               | none => false))
          (by simp only [List.length_cons] at hinv; omega)
          (by omega)
        rw [hw, List.take_succ_cons, countTiesFrom_cons]
        obtain ⟨ih1, ih2⟩ := ih
        rw [ih1, ih2]
        cases hb : (match prev with
             | some p => decide (|t.score - p| < tieEps)
             | none => false) with
        | false =>
          constructor
          · simp [hb]
          · simp [hb]
        | true =>
          constructor
          · simp [hb]
            omega
          · simp [hb]

/-- The value one group records: `specRR` of its descending-score order. -/
theorem evalGroup_val (rows : List SRow) (h : rows ≠ []) :
    (evalGroup rows).1 = some (specRR (rows.mergeSort scoreDescLe)) := by
  have hlen : (rows.mergeSort scoreDescLe).length = rows.length :=
    List.length_mergeSort rows
  have hne : rows.mergeSort scoreDescLe ≠ [] := by
    intro h0
    apply h
    have := congrArg List.length h0
    rw [hlen] at this
    exact List.eq_nil_of_length_eq_zero this
  have hmain := groupWalk_val (rows.mergeSort scoreDescLe) 0 rows.length
    none 0 false (by rw [Nat.zero_add, hlen]) (by omega) hne
  rw [evalGroup, hmain]
  unfold specRR
  cases he : firstRelPos (rows.mergeSort scoreDescLe) with
  | none => rfl
  | some i => simp

/-- The tie bookkeeping one group contributes: the number of adjacent
sub-epsilon pairs among the walked prefix of its descending-score order;
the flag says whether that number is positive. -/
theorem evalGroup_ties (rows : List SRow) :
    (evalGroup rows).2.1 =
      countClosePairs ((rows.mergeSort scoreDescLe).take
        (walkedLen (rows.mergeSort scoreDescLe))) ∧
    (evalGroup rows).2.2 =
      decide (0 < countClosePairs ((rows.mergeSort scoreDescLe).take
        (walkedLen (rows.mergeSort scoreDescLe)))) := by
  have hmain := groupWalk_ties (rows.mergeSort scoreDescLe) 0 rows.length
    none 0 false (by rw [Nat.zero_add, List.length_mergeSort]) (by omega)
  rw [walkedLen_eq_walkedFrom]
  obtain ⟨h1, h2⟩ := hmain
  rw [evalGroup]
  constructor
  · rw [h1, Nat.zero_add]
    rfl
  · rw [h2, Bool.false_or]
    rfl

theorem flatMap_single {α β : Type} (g : α → β) :
    ∀ qs : List α, qs.flatMap (fun q => [g q]) = qs.map g
  | [] => rfl
  | q :: qs => by
    simp only [List.flatMap_cons, List.map_cons, List.singleton_append,
      flatMap_single g qs]

/-- Unrolling of `eval_mrr`'s outer loop: the accumulators collect, over
the group keys in order, the tie-count sum, the tie-flagged keys and the
recorded values. -/
theorem evalLoop_spec (data : List SRow) : ∀ (qs : List Int) (ties : Nat)
    (tq : List Int) (mrr : List Rat),
    evalLoop data qs ties tq mrr =
      (ties + (qs.map (fun q => (evalGroup (groupRows data q)).2.1)).sum,
       tq ++ qs.filter (fun q => (evalGroup (groupRows data q)).2.2),
       mrr ++ qs.flatMap (fun q =>
         match (evalGroup (groupRows data q)).1 with
         | some v => [v]
         | none => []))
  | [], ties, tq, mrr => by simp [evalLoop]
  | q :: qs, ties, tq, mrr => by
    rw [evalLoop, evalLoop_spec data qs]
    simp only [List.map_cons, List.sum_cons, List.filter_cons,
      List.flatMap_cons]
    refine congrArg₂ Prod.mk (by omega) (congrArg₂ Prod.mk ?_ ?_)
    · cases hb : (evalGroup (groupRows data q)).2.2 <;>
        simp [hb, List.append_assoc]
    · rw [List.append_assoc]

/-- Every key of `groupby('qid')` has a non-empty group. -/
theorem groupRows_ne_nil (data : List SRow) (q : Int)
    (hq : q ∈ sortedQids data) : groupRows data q ≠ [] := by
  rw [sortedQids] at hq
  rw [List.mem_mergeSort, List.mem_dedup, List.mem_map] at hq
  obtain ⟨r, hr, hrq⟩ := hq
  intro hnil
  have : r ∈ groupRows data q := by
    rw [groupRows, List.mem_filter]
    exact ⟨hr, by simp [hrq]⟩
  rw [hnil] at this
  exact absurd this (List.not_mem_nil r)

/-- Characterization of a successful `eval_mrr` run: the `MRR` list is the
per-group `specRR` values in ascending-`qid` order, `mrr_10` is their mean,
the tie counter is the sum of the per-group walked-prefix tie counts, and
the tie-query set is the list of keys whose group has a positive count. -/
theorem eval_mrr_spec (data : List SRow) (res : MrrResult)
    (h : eval_mrr data = some res) :
    res.mrrList = (sortedQids data).map
      (fun q => specRR ((groupRows data q).mergeSort scoreDescLe)) ∧
    res.mrr_10 = res.mrrList.sum / (res.mrrList.length : Rat) ∧
    res.tieCount = ((sortedQids data).map
      (fun q => (evalGroup (groupRows data q)).2.1)).sum ∧
    res.tieQueries = (sortedQids data).filter
      (fun q => (evalGroup (groupRows data q)).2.2) := by
  rw [eval_mrr] at h
  by_cases hc : (sortedQids data).all
      (fun q => decide (((groupRows data q).map (·.pid)).Nodup)) = true
  · rw [if_pos hc] at h
    rw [evalLoop_spec] at h
    simp only [Nat.zero_add, List.nil_append] at h
    have hflat : (sortedQids data).flatMap (fun q =>
        match (evalGroup (groupRows data q)).1 with
        | some v => [v]
        | none => []) = (sortedQids data).map
          (fun q => specRR ((groupRows data q).mergeSort scoreDescLe)) := by
      rw [← flatMap_single]
      rw [List.flatMap_def, List.flatMap_def]
      refine congrArg List.flatten (List.map_congr_left ?_)
      intro q hq
      rw [evalGroup_val (groupRows data q) (groupRows_ne_nil data q hq)]
    have hres := (Option.some.injEq _ _).mp h
    subst hres
    refine ⟨hflat, rfl, rfl, rfl⟩
  · rw [if_neg hc] at h
    exact absurd h (by simp)

theorem firstRelPos_none_of_all_nonpos : ∀ (l : List SRow),
    (∀ r ∈ l, r.rel ≤ 0) → firstRelPos l = none
  | [], _ => rfl
  | t :: rest, h => by
    have ht : ¬ t.rel > 0 := by
      have := h t (by simp)
      omega
    simp only [firstRelPos, if_neg ht,
      firstRelPos_none_of_all_nonpos rest (fun r hr => h r (by simp [hr]))]
    rfl

theorem firstRelPos_of_rel_seq_0010 (l : List SRow)
    (hmap : l.map (·.rel) = [0, 0, 1, 0]) : firstRelPos l = some 2 := by
  rcases l with _ | ⟨a, l⟩
  · simp at hmap
  rcases l with _ | ⟨b, l⟩
  · simp at hmap
  rcases l with _ | ⟨c, l⟩
  · simp at hmap
  rcases l with _ | ⟨d, l⟩
  · simp at hmap
  rcases l with _ | ⟨e, l⟩
  · simp only [List.map_cons, List.map_nil, List.cons.injEq,
      and_true] at hmap
    obtain ⟨ha, hb, hc, hd⟩ := hmap
    simp [firstRelPos, ha, hb, hc, hd]
  · simp at hmap

/-- C1: for every query group evaluated by `eval_mrr`, the recorded
per-query value is `1/rank` of the first row (in stable descending-score
order) with relevance `> 0`, and `0` if no such row occurs by rank 10 or
the group is exhausted first (`specRR`); the relevance sequence
`[0,0,1,0]` in descending-score order contributes `1/3`; an all-irrelevant
group of length ≥ 10 contributes `0`; and the returned `mrr_10` is the
mean of the per-query values. -/
theorem eval_mrr_records_first_relevant_reciprocal
    (data : List SRow) (res : MrrResult) (h : eval_mrr data = some res) :
    res.mrrList = (sortedQids data).map
      (fun q => specRR ((groupRows data q).mergeSort scoreDescLe)) ∧
    res.mrr_10 = res.mrrList.sum / (res.mrrList.length : Rat) ∧
    (∀ rows : List SRow,
      (rows.mergeSort scoreDescLe).map (·.rel) = [0, 0, 1, 0] →
      (evalGroup rows).1 = some (1 / 3)) ∧
    (∀ rows : List SRow, 10 ≤ rows.length →
      (∀ r ∈ rows, r.rel ≤ 0) → (evalGroup rows).1 = some 0) := by
  obtain ⟨h1, h2, -, -⟩ := eval_mrr_spec data res h
  refine ⟨h1, h2, ?_, ?_⟩
  · intro rows hmap
    have hne : rows ≠ [] := by
      intro hnil
      subst hnil
      simp at hmap
    rw [evalGroup_val rows hne, specRR,
      firstRelPos_of_rel_seq_0010 _ hmap]
    norm_num
  · intro rows hlen hall
    have hne : rows ≠ [] := by
      intro hnil
      subst hnil
      simp at hlen
    have hnone : firstRelPos (rows.mergeSort scoreDescLe) = none :=
      firstRelPos_none_of_all_nonpos _
        (fun r hr => hall r (List.mem_mergeSort.mp hr))
    rw [evalGroup_val rows hne, specRR, hnone]

theorem eval_mrr_records_first_relevant_reciprocal_witness :
    eval_mrr [⟨1, 100, 1, 1⟩] = some ⟨0, [], [1], 1⟩ ∧
    ((⟨0, [], [1], 1⟩ : MrrResult).mrrList = (sortedQids [⟨1, 100, 1, 1⟩]).map
      (fun q => specRR ((groupRows [⟨1, 100, 1, 1⟩] q).mergeSort scoreDescLe)) ∧
    (⟨0, [], [1], 1⟩ : MrrResult).mrr_10 =
      (⟨0, [], [1], 1⟩ : MrrResult).mrrList.sum /
        ((⟨0, [], [1], 1⟩ : MrrResult).mrrList.length : Rat) ∧
    (∀ rows : List SRow,
      (rows.mergeSort scoreDescLe).map (·.rel) = [0, 0, 1, 0] →
      (evalGroup rows).1 = some (1 / 3)) ∧
    (∀ rows : List SRow, 10 ≤ rows.length →
      (∀ r ∈ rows, r.rel ≤ 0) → (evalGroup rows).1 = some 0)) := by
  have hc : eval_mrr [⟨1, 100, 1, 1⟩] = some ⟨0, [], [1], 1⟩ := by
    simp [eval_mrr, sortedQids, groupRows, evalLoop, evalGroup, groupWalk]
  exact ⟨hc, eval_mrr_records_first_relevant_reciprocal _ _ hc⟩

theorem sortedQids_nodup (data : List SRow) : (sortedQids data).Nodup := by
  rw [sortedQids]
  exact (List.mergeSort_perm ((data.map (·.qid)).dedup) intLe).symm.nodup
    (List.nodup_dedup _)

/-- C5: each adjacent sub-epsilon score pair among the rows `eval_mrr`
actually walks bumps the global tie counter by exactly 1 and flags the
query id; a query id occurs in the tie-query set at most once; and the
diagnostics leave `mrr_10` untouched (it is determined by the per-group
`specRR` values alone). -/
theorem eval_mrr_tie_diagnostics (data : List SRow) (res : MrrResult)
    (h : eval_mrr data = some res) :
    res.tieCount = ((sortedQids data).map (fun q =>
      countClosePairs (((groupRows data q).mergeSort scoreDescLe).take
        (walkedLen ((groupRows data q).mergeSort scoreDescLe))))).sum ∧
    (∀ q : Int, q ∈ res.tieQueries ↔ q ∈ sortedQids data ∧
      0 < countClosePairs (((groupRows data q).mergeSort scoreDescLe).take
        (walkedLen ((groupRows data q).mergeSort scoreDescLe)))) ∧
    res.tieQueries.Nodup ∧
    res.mrr_10 = ((sortedQids data).map
      (fun q => specRR ((groupRows data q).mergeSort scoreDescLe))).sum /
      (((sortedQids data).length : Nat) : Rat) := by
  obtain ⟨h1, h2, h3, h4⟩ := eval_mrr_spec data res h
  refine ⟨?_, ?_, ?_, ?_⟩
  · rw [h3]
    congr 1
    refine List.map_congr_left (fun q _ => ?_)
    exact (evalGroup_ties (groupRows data q)).1
  · intro q
    rw [h4, List.mem_filter]
    constructor
    · rintro ⟨hq, hflag⟩
      refine ⟨hq, ?_⟩
      rw [(evalGroup_ties (groupRows data q)).2] at hflag
      exact of_decide_eq_true hflag
    · rintro ⟨hq, hpos⟩
      refine ⟨hq, ?_⟩
      rw [(evalGroup_ties (groupRows data q)).2]
      exact decide_eq_true hpos
  · rw [h4]
    exact (sortedQids_nodup data).filter _
  · rw [h2, h1]
    rw [List.length_map]

theorem eval_mrr_tie_diagnostics_witness :
    eval_mrr [⟨1, 100, 0, 1⟩, ⟨1, 101, 1, 1⟩] = some ⟨1, [1], [1/2], 1/2⟩ ∧
    ((⟨1, [1], [1/2], 1/2⟩ : MrrResult).tieCount =
      ((sortedQids [⟨1, 100, 0, 1⟩, ⟨1, 101, 1, 1⟩]).map (fun q =>
        countClosePairs (((groupRows [⟨1, 100, 0, 1⟩, ⟨1, 101, 1, 1⟩]
            q).mergeSort scoreDescLe).take
          (walkedLen ((groupRows [⟨1, 100, 0, 1⟩, ⟨1, 101, 1, 1⟩]
            q).mergeSort scoreDescLe))))).sum ∧
    (∀ q : Int, q ∈ (⟨1, [1], [1/2], 1/2⟩ : MrrResult).tieQueries ↔
      q ∈ sortedQids [⟨1, 100, 0, 1⟩, ⟨1, 101, 1, 1⟩] ∧
      0 < countClosePairs (((groupRows [⟨1, 100, 0, 1⟩, ⟨1, 101, 1, 1⟩]
          q).mergeSort scoreDescLe).take
        (walkedLen ((groupRows [⟨1, 100, 0, 1⟩, ⟨1, 101, 1, 1⟩]
          q).mergeSort scoreDescLe)))) ∧
    (⟨1, [1], [1/2], 1/2⟩ : MrrResult).tieQueries.Nodup ∧
    (⟨1, [1], [1/2], 1/2⟩ : MrrResult).mrr_10 =
      ((sortedQids [⟨1, 100, 0, 1⟩, ⟨1, 101, 1, 1⟩]).map
        (fun q => specRR ((groupRows [⟨1, 100, 0, 1⟩, ⟨1, 101, 1, 1⟩]
          q).mergeSort scoreDescLe))).sum /
        (((sortedQids [⟨1, 100, 0, 1⟩, ⟨1, 101, 1, 1⟩]).length : Nat) :
          Rat)) := by
  have hms : ([⟨1, 100, 0, 1⟩, ⟨1, 101, 1, 1⟩] : List SRow).mergeSort
      scoreDescLe = [⟨1, 100, 0, 1⟩, ⟨1, 101, 1, 1⟩] :=
    List.mergeSort_of_sorted (by simp [scoreDescLe])
  have hc : eval_mrr [⟨1, 100, 0, 1⟩, ⟨1, 101, 1, 1⟩] =
      some ⟨1, [1], [1/2], 1/2⟩ := by
    simp [eval_mrr, sortedQids, groupRows, evalLoop, evalGroup, groupWalk,
      tieEps, hms]
  exact ⟨hc, eval_mrr_tie_diagnostics _ _ hc⟩

theorem firstRelPos_lt_length : ∀ (l : List SRow) (i : Nat),
    firstRelPos l = some i → i < l.length
  | [], i, h => by simp [firstRelPos] at h
  | t :: rest, i, h => by
    by_cases hrel : t.rel > 0
    · simp only [firstRelPos, if_pos hrel, Option.some.injEq] at h
      subst h
      simp
    · simp only [firstRelPos, if_neg hrel] at h
      cases he : firstRelPos rest with
      | none => rw [he] at h; simp at h
      | some j =>
        rw [he] at h
        simp only [Option.map_some', Option.some.injEq] at h
        subst h
        have := firstRelPos_lt_length rest j he
        simp only [List.length_cons]
        omega

theorem firstRelPos_take : ∀ (w : Nat) (l : List SRow),
    firstRelPos (l.take w) =
      match firstRelPos l with
      | some i => if i < w then some i else none
      | none => none
  | _, [] => by simp [firstRelPos]
  | 0, t :: rest => by
    cases he : firstRelPos (t :: rest) <;> simp [firstRelPos]
  | w + 1, t :: rest => by
    by_cases hrel : t.rel > 0
    · simp [firstRelPos, hrel]
    · simp only [List.take_succ_cons, firstRelPos, if_neg hrel,
        firstRelPos_take w rest]
      cases he : firstRelPos rest with
      | none => simp
      | some j =>
        by_cases hj : j < w
        · simp [hj]
        · simp [hj]

theorem walkedLen_le_length (l : List SRow) : walkedLen l ≤ l.length := by
  cases he : firstRelPos l with
  | none =>
    have hwv : walkedLen l = min 10 l.length := by rw [walkedLen, he]
    omega
  | some i =>
    have hwv : walkedLen l = min (i + 1) (min 10 l.length) := by
      rw [walkedLen, he]
    omega

theorem walkedLen_pos (l : List SRow) (h : l ≠ []) : 0 < walkedLen l := by
  have hlen : 0 < l.length := List.length_pos.mpr h
  cases he : firstRelPos l with
  | none =>
    have hwv : walkedLen l = min 10 l.length := by rw [walkedLen, he]
    omega
  | some i =>
    have hwv : walkedLen l = min (i + 1) (min 10 l.length) := by
      rw [walkedLen, he]
    omega

theorem walkedLen_take (l : List SRow) :
    walkedLen (l.take (walkedLen l)) = walkedLen l := by
  have hle := walkedLen_le_length l
  have hlen : (l.take (walkedLen l)).length = walkedLen l := by
    rw [List.length_take]
    omega
  cases he : firstRelPos l with
  | none =>
    have hwv : walkedLen l = min 10 l.length := by rw [walkedLen, he]
    have h1 : firstRelPos (l.take (walkedLen l)) = none := by
      rw [firstRelPos_take, he]
    have h2 : walkedLen (l.take (walkedLen l)) =
        min 10 (l.take (walkedLen l)).length := by
      rw [walkedLen, h1]
    rw [h2, hlen]
    omega
  | some i =>
    have hwv : walkedLen l = min (i + 1) (min 10 l.length) := by
      rw [walkedLen, he]
    by_cases hi : i < walkedLen l
    · have h1 : firstRelPos (l.take (walkedLen l)) = some i := by
        rw [firstRelPos_take, he]
        exact if_pos hi
      have h2 : walkedLen (l.take (walkedLen l)) =
          min (i + 1) (min 10 (l.take (walkedLen l)).length) := by
        rw [walkedLen, h1]
      rw [h2, hlen]
      omega
    · have h1 : firstRelPos (l.take (walkedLen l)) = none := by
        rw [firstRelPos_take, he]
        exact if_neg hi
      have h2 : walkedLen (l.take (walkedLen l)) =
          min 10 (l.take (walkedLen l)).length := by
        rw [walkedLen, h1]
      rw [h2, hlen]
      omega

theorem specRR_take (l : List SRow) :
    specRR (l.take (walkedLen l)) = specRR l := by
  cases he : firstRelPos l with
  | none =>
    have h1 : firstRelPos (l.take (walkedLen l)) = none := by
      rw [firstRelPos_take, he]
    rw [specRR, specRR, h1, he]
  | some i =>
    have hi' := firstRelPos_lt_length l i he
    by_cases hiw : i < walkedLen l
    · have h1 : firstRelPos (l.take (walkedLen l)) = some i := by
        rw [firstRelPos_take, he]
        exact if_pos hiw
      rw [specRR, specRR, h1, he]
    · have h1 : firstRelPos (l.take (walkedLen l)) = none := by
        rw [firstRelPos_take, he]
        exact if_neg hiw
      have h10 : ¬ (i + 1 ≤ 10) := by
        have hwv : walkedLen l = min (i + 1) (min 10 l.length) := by
          rw [walkedLen, he]
        omega
      rw [specRR, specRR, h1, he]
      simp [h10]

/-- The whole inner walk of one group (value, ties, flag) is already
determined by the walked prefix of the sorted rows. -/
theorem groupWalk_zero (l : List SRow) (glen : Nat) (hg : l.length = glen)
    (hne : l ≠ []) :
    groupWalk glen l 0 none 0 false =
      (some (specRR l), countClosePairs (l.take (walkedLen l)),
       decide (0 < countClosePairs (l.take (walkedLen l)))) := by
  have hv := groupWalk_val l 0 glen none 0 false (by omega) (by omega) hne
  obtain ⟨ht1, ht2⟩ := groupWalk_ties l 0 glen none 0 false
    (by omega) (by omega)
  have hw0 : walkedFrom 0 l = walkedLen l := (walkedLen_eq_walkedFrom l).symm
  rw [hw0, Nat.zero_add] at ht1
  rw [hw0, Bool.false_or] at ht2
  have hv' : (groupWalk glen l 0 none 0 false).1 = some (specRR l) := by
    rw [hv, specRR]
    cases he : firstRelPos l with
    | none => rfl
    | some i => simp
  refine Prod.ext hv' (Prod.ext ?_ ?_)
  · exact ht1
  · exact ht2

/-- C10: the inner loop stops as soon as it records a value — the walk of a
full sorted group equals the walk of just its walked prefix (so ties among
later rows are never counted and the query id is never flagged for them) —
and every non-empty group contributes exactly one value, so the mean's
denominator is the number of distinct query ids. -/
theorem eval_mrr_stops_after_record (data : List SRow) (res : MrrResult)
    (h : eval_mrr data = some res) :
    (∀ rows : List SRow, rows ≠ [] →
      groupWalk rows.length (rows.mergeSort scoreDescLe) 0 none 0 false =
      groupWalk (walkedLen (rows.mergeSort scoreDescLe))
        ((rows.mergeSort scoreDescLe).take
          (walkedLen (rows.mergeSort scoreDescLe))) 0 none 0 false) ∧
    res.mrrList.length = (sortedQids data).length ∧
    res.mrr_10 = res.mrrList.sum / ((sortedQids data).length : Rat) := by
  obtain ⟨h1, h2, -, -⟩ := eval_mrr_spec data res h
  have hlenl : res.mrrList.length = (sortedQids data).length := by
    rw [h1, List.length_map]
  refine ⟨?_, hlenl, by rw [h2, hlenl]⟩
  intro rows hne
  have hsne : rows.mergeSort scoreDescLe ≠ [] := by
    intro h0
    apply hne
    have := congrArg List.length h0
    rw [List.length_mergeSort] at this
    exact List.eq_nil_of_length_eq_zero this
  set s := rows.mergeSort scoreDescLe with hs
  have hwle := walkedLen_le_length s
  have hwpos := walkedLen_pos s hsne
  have htlen : (s.take (walkedLen s)).length = walkedLen s := by
    rw [List.length_take]
    omega
  have htne : s.take (walkedLen s) ≠ [] :=
    List.length_pos.mp (by rw [htlen]; exact hwpos)
  rw [groupWalk_zero s rows.length (by rw [hs, List.length_mergeSort]) hsne,
    groupWalk_zero (s.take (walkedLen s)) (walkedLen s) htlen htne]
  rw [specRR_take, walkedLen_take, List.take_take, Nat.min_self]

theorem eval_mrr_stops_after_record_witness :
    eval_mrr [⟨2, 5, 0, 1⟩] = some ⟨0, [], [0], 0⟩ ∧
    ((∀ rows : List SRow, rows ≠ [] →
      groupWalk rows.length (rows.mergeSort scoreDescLe) 0 none 0 false =
      groupWalk (walkedLen (rows.mergeSort scoreDescLe))
        ((rows.mergeSort scoreDescLe).take
          (walkedLen (rows.mergeSort scoreDescLe))) 0 none 0 false) ∧
    (⟨0, [], [0], 0⟩ : MrrResult).mrrList.length =
      (sortedQids [⟨2, 5, 0, 1⟩]).length ∧
    (⟨0, [], [0], 0⟩ : MrrResult).mrr_10 =
      (⟨0, [], [0], 0⟩ : MrrResult).mrrList.sum /
        ((sortedQids [⟨2, 5, 0, 1⟩]).length : Rat)) := by
  have hc : eval_mrr [⟨2, 5, 0, 1⟩] = some ⟨0, [], [0], 0⟩ := by
    simp [eval_mrr, sortedQids, groupRows, evalLoop, evalGroup, groupWalk]
  exact ⟨hc, eval_mrr_stops_after_record _ _ hc⟩

/-! ## Lemmas about `extract` -/

theorem intLe_trans : ∀ a b c : Int, intLe a b → intLe b c → intLe a c := by
  intro a b c h1 h2
  simp only [intLe, decide_eq_true_eq] at h1 h2 ⊢
  omega

theorem intLe_total : ∀ a b : Int, intLe a b || intLe b a := by
  intro a b
  simp only [intLe, Bool.or_eq_true, decide_eq_true_eq]
  omega

theorem qidLe_trans : ∀ a b c : ORow, intLe a.qid b.qid → intLe b.qid c.qid →
    intLe a.qid c.qid := fun a b c => intLe_trans a.qid b.qid c.qid

theorem qidLe_total : ∀ a b : ORow, intLe a.qid b.qid || intLe b.qid a.qid :=
  fun a b => intLe_total a.qid b.qid

theorem sortedQidsO_nodup (m : List ORow) : (sortedQidsO m).Nodup := by
  rw [sortedQidsO]
  exact (List.mergeSort_perm ((m.map (·.qid)).dedup) intLe).symm.nodup
    (List.nodup_dedup _)

theorem sortedQidsO_pairwise_lt (m : List ORow) :
    (sortedQidsO m).Pairwise (· < ·) := by
  have h1 := List.sorted_mergeSort intLe_trans intLe_total
    ((m.map (·.qid)).dedup)
  have hle : (sortedQidsO m).Pairwise (· ≤ ·) := by
    rw [sortedQidsO]
    exact h1.imp (fun hab => by
      simpa [intLe] using hab)
  exact (hle.and (sortedQidsO_nodup m)).imp
    (fun hab => lt_of_le_of_ne hab.1 hab.2)

theorem mem_sortedQidsO (m : List ORow) (r : ORow) (hr : r ∈ m) :
    r.qid ∈ sortedQidsO m := by
  rw [sortedQidsO, List.mem_mergeSort, List.mem_dedup, List.mem_map]
  exact ⟨r, hr, rfl⟩

theorem chunks10000_flatten : ∀ l : List Int, (chunks10000 l).flatten = l
  | [] => by simp [chunks10000]
  | x :: xs => by
    rw [chunks10000]
    simp only [List.flatten_cons]
    rw [chunks10000_flatten ((x :: xs).drop 10000), List.take_append_drop]
  termination_by l => l.length
  decreasing_by simp; omega

/-- Destructuring a successful `extract` run. -/
theorem extract_some_elim (oracle : Int → List DocEntry) (df : List QRow)
    (fn : List String) (data : List ORow) (group : List Nat)
    (raw : List ORow) (st ft : List Int)
    (h : extract oracle df fn = some (data, group, raw, st, ft)) :
    ∃ pieces : List (List ORow),
      flushAll oracle df fn (chunks10000 (sortedQidsQ df)) = some pieces ∧
      raw = pieces.flatten ∧
      data = raw.mergeSort (fun a b => intLe a.qid b.qid) ∧
      group = (sortedQidsO data).map
        (fun q => (data.filter (fun r => r.qid = q)).length) ∧
      st = sortedQidsQ df ∧
      ft = (chunks10000 (sortedQidsQ df)).flatten := by
  simp only [extract] at h
  by_cases hc : (sortedQidsQ df).all
      (fun q => decide (((groupRowsQ df q).map (·.pid)).Nodup)) = true
  · rw [if_pos hc] at h
    cases hm : flushAll oracle df fn (chunks10000 (sortedQidsQ df)) with
    | none => rw [hm] at h; simp at h
    | some pieces =>
      rw [hm] at h
      simp only [Option.some_bind] at h
      by_cases hp : pieces.isEmpty = true
      · rw [if_pos hp] at h
        simp at h
      · rw [if_neg hp] at h
        simp only [Option.some.injEq, Prod.mk.injEq] at h
        obtain ⟨hdata, hgroup, hraw, hst, hft⟩ := h
        subst hraw
        subst hdata
        subst hgroup
        subst hst
        subst hft
        exact ⟨pieces, rfl, rfl, rfl, rfl, rfl, rfl⟩
  · rw [if_neg hc] at h
    simp at h

/-- C2: for every assembled batch, the group sizes sum to the row count of
the final matrix; the final stable sort by query id leaves each per-`qid`
subsequence in its original relative order and makes the matrix the
concatenation of its per-`qid` blocks taken along the ascending distinct
`qid` list — the same order in which the Group array is computed. -/
theorem extract_batch_invariants (oracle : Int → List DocEntry)
    (df : List QRow) (fn : List String) (data : List ORow)
    (group : List Nat) (raw : List ORow) (st ft : List Int)
    (h : extract oracle df fn = some (data, group, raw, st, ft)) :
    group.sum = data.length ∧
    data = (sortedQidsO data).flatMap
      (fun q => data.filter (fun r => r.qid = q)) ∧
    (∀ q : Int, data.filter (fun r => r.qid = q) =
      raw.filter (fun r => r.qid = q)) ∧
    group = (sortedQidsO data).map
      (fun q => (data.filter (fun r => r.qid = q)).length) := by
  obtain ⟨pieces, -, hraw, hdata, hgroup, -, -⟩ :=
    extract_some_elim oracle df fn data group raw st ft h
  have hsorted : data.Pairwise (fun a b => a.qid ≤ b.qid) := by
    rw [hdata]
    exact (List.sorted_mergeSort qidLe_trans qidLe_total raw).imp
      (fun hab => by simpa [intLe] using hab)
  have hflat := qidSorted_flatMap_blocks (sortedQidsO data) data hsorted
    (sortedQidsO_pairwise_lt data) (fun r hr => mem_sortedQidsO data r hr)
  have hstab : ∀ q : Int, data.filter (fun r => r.qid = q) =
      raw.filter (fun r => r.qid = q) := by
    intro q
    rw [hdata]
    exact filter_mergeSort_eq _ qidLe_trans qidLe_total
      (fun r => r.qid = q)
      (fun a b ha hb => by
        simp only [decide_eq_true_eq] at ha hb
        simp [intLe, ha, hb]) raw
  refine ⟨?_, hflat, hstab, hgroup⟩
  have hlen := congrArg List.length hflat
  rw [List.flatMap_def, List.length_flatten, List.map_map] at hlen
  rw [hgroup, hlen]
  rfl

theorem extract_batch_invariants_witness :
    extract (fun _ => [⟨100, []⟩]) [⟨1, 100, 1⟩] [] =
      some ([⟨1, 100, 1, []⟩], [1], [⟨1, 100, 1, []⟩], [1], [1]) ∧
    (([1] : List Nat).sum = ([⟨1, 100, 1, []⟩] : List ORow).length ∧
    ([⟨1, 100, 1, []⟩] : List ORow) =
      (sortedQidsO [⟨1, 100, 1, []⟩]).flatMap
        (fun q => ([⟨1, 100, 1, []⟩] : List ORow).filter
          (fun r => r.qid = q)) ∧
    (∀ q : Int, ([⟨1, 100, 1, []⟩] : List ORow).filter
        (fun r => r.qid = q) =
      ([⟨1, 100, 1, []⟩] : List ORow).filter (fun r => r.qid = q)) ∧
    ([1] : List Nat) = (sortedQidsO [⟨1, 100, 1, []⟩]).map
      (fun q => (([⟨1, 100, 1, []⟩] : List ORow).filter
        (fun r => r.qid = q)).length)) := by
  have hc : extract (fun _ => [⟨100, []⟩]) [⟨1, 100, 1⟩] [] =
      some ([⟨1, 100, 1, []⟩], [1], [⟨1, 100, 1, []⟩], [1], [1]) := by
    simp [extract, sortedQidsQ, groupRowsQ, chunks10000, flushAll,
      flushChunk, flushRows, mkRows, rowsFor, relPairs, relLookup,
      sortedQidsO]
  exact ⟨hc, extract_batch_invariants _ _ _ _ _ _ _ _ hc⟩

theorem relLookup_eq_some (ps : List (Int × Int)) (pid rel : Int)
    (h : relLookup ps pid = some rel) :
    ∃ pr ∈ ps, pr.1 = pid ∧ pr.2 = rel := by
  rw [relLookup] at h
  cases hf : ps.find? (fun p => p.1 = pid) with
  | none => rw [hf] at h; simp at h
  | some pr =>
    rw [hf] at h
    simp only [Option.map_some', Option.some.injEq] at h
    have h1 := List.find?_some hf
    have h2 := List.mem_of_find?_eq_some hf
    simp only [decide_eq_true_eq] at h1
    exact ⟨pr, h2, h1, h⟩

theorem relPairs_mem (df : List QRow) (q : Int) (pr : Int × Int)
    (h : pr ∈ relPairs df q) :
    ∃ qr ∈ df, qr.qid = q ∧ qr.pid = pr.1 ∧ qr.rel = pr.2 := by
  rw [relPairs, List.mem_map] at h
  obtain ⟨qr, hqr, hpr⟩ := h
  rw [groupRowsQ, List.mem_filter] at hqr
  refine ⟨qr, hqr.1, by simpa using hqr.2, ?_, ?_⟩ <;>
    simp [← hpr]

theorem rowsFor_mem : ∀ (ps : List (Int × Int)) (q : Int)
    (ds : List DocEntry) (rows : List ORow),
    rowsFor ps q ds = some rows → ∀ row ∈ rows,
    row.qid = q ∧ ∃ pr ∈ ps, pr.1 = row.pid ∧ pr.2 = row.rel
  | _, _, [], rows, h => by
    simp only [rowsFor, Option.some.injEq] at h
    subst h
    intro row hrow
    exact absurd hrow (List.not_mem_nil row)
  | ps, q, d :: ds, rows, h => by
    simp only [rowsFor] at h
    cases hl : relLookup ps d.pid with
    | none => rw [hl] at h; simp at h
    | some rel =>
      cases hr : rowsFor ps q ds with
      | none => rw [hl, hr] at h; simp at h
      | some rest =>
        rw [hl, hr] at h
        simp only [Option.some.injEq] at h
        subst h
        intro row hrow
        rcases List.mem_cons.mp hrow with hrow | hrow
        · subst hrow
          obtain ⟨pr, hpr, h1, h2⟩ := relLookup_eq_some ps d.pid rel hl
          exact ⟨rfl, pr, hpr, h1, h2⟩
        · exact rowsFor_mem ps q ds rest hr row hrow

theorem rowsFor_length : ∀ (ps : List (Int × Int)) (q : Int)
    (ds : List DocEntry) (rows : List ORow),
    rowsFor ps q ds = some rows → rows.length = ds.length
  | _, _, [], rows, h => by
    simp only [rowsFor, Option.some.injEq] at h
    subst h
    rfl
  | ps, q, d :: ds, rows, h => by
    simp only [rowsFor] at h
    cases hl : relLookup ps d.pid with
    | none => rw [hl] at h; simp at h
    | some rel =>
      cases hr : rowsFor ps q ds with
      | none => rw [hl, hr] at h; simp at h
      | some rest =>
        rw [hl, hr] at h
        simp only [Option.some.injEq] at h
        subst h
        simp only [List.length_cons, rowsFor_length ps q ds rest hr]

theorem flushRows_mem : ∀ (oracle : Int → List DocEntry) (df : List QRow)
    (qs : List Int) (w : List ORow),
    flushRows oracle df qs = some w → ∀ row ∈ w,
    ∃ q ∈ qs, ∃ rows, mkRows oracle df q = some rows ∧ row ∈ rows
  | _, _, [], w, h => by
    simp only [flushRows, Option.some.injEq] at h
    subst h
    intro row hrow
    exact absurd hrow (List.not_mem_nil row)
  | oracle, df, q :: qs, w, h => by
    simp only [flushRows] at h
    cases hm : mkRows oracle df q with
    | none => rw [hm] at h; simp at h
    | some rows =>
      cases hr : flushRows oracle df qs with
      | none => rw [hm, hr] at h; simp at h
      | some rest =>
        rw [hm, hr] at h
        simp only [Option.some.injEq] at h
        subst h
        intro row hrow
        rcases List.mem_append.mp hrow with hrow | hrow
        · exact ⟨q, by simp, rows, hm, hrow⟩
        · obtain ⟨q', hq', rows', hm', hrow'⟩ :=
            flushRows_mem oracle df qs rest hr row hrow
          exact ⟨q', by simp [hq'], rows', hm', hrow'⟩

theorem flushRows_length : ∀ (oracle : Int → List DocEntry)
    (df : List QRow) (qs : List Int) (w : List ORow),
    flushRows oracle df qs = some w →
    (∀ q ∈ qs, (oracle q).length = (relPairs df q).length) →
    w.length = (qs.map (fun q => (relPairs df q).length)).sum
  | _, _, [], w, h, _ => by
    simp only [flushRows, Option.some.injEq] at h
    subst h
    rfl
  | oracle, df, q :: qs, w, h, hlen => by
    simp only [flushRows] at h
    cases hm : mkRows oracle df q with
    | none => rw [hm] at h; simp at h
    | some rows =>
      cases hr : flushRows oracle df qs with
      | none => rw [hm, hr] at h; simp at h
      | some rest =>
        rw [hm, hr] at h
        simp only [Option.some.injEq] at h
        subst h
        have h1 : rows.length = (oracle q).length :=
          rowsFor_length _ q _ rows hm
        have h2 := flushRows_length oracle df qs rest hr
          (fun q' hq' => hlen q' (by simp [hq']))
        simp only [List.length_append, List.map_cons, List.sum_cons,
          h1, h2, hlen q (by simp)]

theorem flushChunk_no_padding (oracle : Int → List DocEntry)
    (df : List QRow) (fn : List String) (chunk : List Int)
    (piece : List ORow) (h : flushChunk oracle df fn chunk = some piece)
    (hlen : ∀ q ∈ chunk, (oracle q).length = (relPairs df q).length) :
    flushRows oracle df chunk = some piece := by
  simp only [flushChunk] at h
  cases hw : flushRows oracle df chunk with
  | none => rw [hw] at h; simp at h
  | some w =>
    rw [hw] at h
    simp only [Option.some_bind] at h
    have hl := flushRows_length oracle df chunk w hw hlen
    rw [if_neg (by omega)] at h
    simp only [Option.some.injEq] at h
    rw [← h, hl]
    simp [Nat.sub_self]

theorem flushAll_mem : ∀ (oracle : Int → List DocEntry) (df : List QRow)
    (fn : List String) (cs : List (List Int)) (pieces : List (List ORow)),
    flushAll oracle df fn cs = some pieces → ∀ piece ∈ pieces,
    ∃ c ∈ cs, flushChunk oracle df fn c = some piece
  | _, _, _, [], pieces, h => by
    simp only [flushAll, Option.some.injEq] at h
    subst h
    intro piece hp
    exact absurd hp (List.not_mem_nil piece)
  | oracle, df, fn, c :: cs, pieces, h => by
    simp only [flushAll] at h
    cases hc : flushChunk oracle df fn c with
    | none => rw [hc] at h; simp at h
    | some p =>
      cases hr : flushAll oracle df fn cs with
      | none => rw [hc, hr] at h; simp at h
      | some ps =>
        rw [hc, hr] at h
        simp only [Option.some.injEq] at h
        subst h
        intro piece hp
        rcases List.mem_cons.mp hp with hp | hp
        · exact ⟨c, by simp, by rw [hc, hp]⟩
        · obtain ⟨c', hc', hfc'⟩ := flushAll_mem oracle df fn cs ps hr
            piece hp
          exact ⟨c', by simp [hc'], hfc'⟩

/-- C8: within one flush the assembler retrieves results in exactly the
order jobs were submitted (the retrieval trace equals the submission
trace, which is the `groupby` order), and — for every order in which a
job's documents come back — each output row's relevance is the judgment
recorded for its `(qid, pid)` pair, matched by document-id membership. -/
theorem extract_retrieval_order_and_relevance
    (oracle : Int → List DocEntry) (df : List QRow) (fn : List String)
    (data : List ORow) (group : List Nat) (raw : List ORow)
    (st ft : List Int)
    (h : extract oracle df fn = some (data, group, raw, st, ft))
    (horacle : ∀ q ∈ sortedQidsQ df,
      ((oracle q).map (·.pid)).Perm ((groupRowsQ df q).map (·.pid))) :
    ft = st ∧ st = sortedQidsQ df ∧
    ∀ row ∈ data, ∃ qr ∈ df, qr.qid = row.qid ∧ qr.pid = row.pid ∧
      qr.rel = row.rel := by
  obtain ⟨pieces, hfa, hraw, hdata, hgroup, hst, hft⟩ :=
    extract_some_elim oracle df fn data group raw st ft h
  refine ⟨by rw [hft, hst, chunks10000_flatten], hst, ?_⟩
  intro row hrow
  rw [hdata, List.mem_mergeSort, hraw] at hrow
  obtain ⟨piece, hpiece, hrowp⟩ := List.mem_flatten.mp hrow
  obtain ⟨c, hc, hfc⟩ := flushAll_mem oracle df fn _ pieces hfa piece hpiece
  have hclen : ∀ q ∈ c, (oracle q).length = (relPairs df q).length := by
    intro q hq
    have hqin : q ∈ sortedQidsQ df := by
      have hmem : q ∈ (chunks10000 (sortedQidsQ df)).flatten :=
        List.mem_flatten.mpr ⟨c, hc, hq⟩
      rwa [chunks10000_flatten] at hmem
    have hperm := (horacle q hqin).length_eq
    simpa [relPairs] using hperm
  have hfr := flushChunk_no_padding oracle df fn c piece hfc hclen
  obtain ⟨q, hqc, rows, hm, hrowr⟩ :=
    flushRows_mem oracle df c piece hfr row hrowp
  obtain ⟨hqid, pr, hpr, h1, h2⟩ :=
    rowsFor_mem (relPairs df q) q (oracle q) rows hm row hrowr
  obtain ⟨qr, hqr, hq1, hq2, hq3⟩ := relPairs_mem df q pr hpr
  exact ⟨qr, hqr, by rw [hq1, hqid], by rw [hq2, h1], by rw [hq3, h2]⟩

theorem extract_retrieval_order_and_relevance_witness :
    extract (fun _ => [⟨101, []⟩, ⟨100, []⟩]) [⟨1, 100, 0⟩, ⟨1, 101, 1⟩]
        [] =
      some ([⟨1, 101, 1, []⟩, ⟨1, 100, 0, []⟩], [2],
        [⟨1, 101, 1, []⟩, ⟨1, 100, 0, []⟩], [1], [1]) ∧
    (∀ q ∈ sortedQidsQ [⟨1, 100, 0⟩, ⟨1, 101, 1⟩],
      (((fun _ => [⟨101, []⟩, ⟨100, []⟩]) q : List DocEntry).map
        (·.pid)).Perm ((groupRowsQ [⟨1, 100, 0⟩, ⟨1, 101, 1⟩] q).map
        (·.pid))) ∧
    (([1] : List Int) = [1] ∧ ([1] : List Int) =
      sortedQidsQ [⟨1, 100, 0⟩, ⟨1, 101, 1⟩] ∧
    ∀ row ∈ ([⟨1, 101, 1, []⟩, ⟨1, 100, 0, []⟩] : List ORow),
      ∃ qr ∈ ([⟨1, 100, 0⟩, ⟨1, 101, 1⟩] : List QRow),
        qr.qid = row.qid ∧ qr.pid = row.pid ∧ qr.rel = row.rel) := by
  have hms : ([⟨1, 101, 1, []⟩, ⟨1, 100, 0, []⟩] : List ORow).mergeSort
      (fun a b => intLe a.qid b.qid) =
      [⟨1, 101, 1, []⟩, ⟨1, 100, 0, []⟩] :=
    List.mergeSort_of_sorted (by simp [intLe])
  have hc : extract (fun _ => [⟨101, []⟩, ⟨100, []⟩])
      [⟨1, 100, 0⟩, ⟨1, 101, 1⟩] [] =
      some ([⟨1, 101, 1, []⟩, ⟨1, 100, 0, []⟩], [2],
        [⟨1, 101, 1, []⟩, ⟨1, 100, 0, []⟩], [1], [1]) := by
    simp [extract, sortedQidsQ, groupRowsQ, chunks10000, flushAll,
      flushChunk, flushRows, mkRows, rowsFor, relPairs, relLookup,
      sortedQidsO, hms]
  have hp : ∀ q ∈ sortedQidsQ [⟨1, 100, 0⟩, ⟨1, 101, 1⟩],
      (((fun _ => [⟨101, []⟩, ⟨100, []⟩]) q : List DocEntry).map
        (·.pid)).Perm ((groupRowsQ [⟨1, 100, 0⟩, ⟨1, 101, 1⟩] q).map
        (·.pid)) := by
    intro q hq
    simp [sortedQidsQ] at hq
    subst hq
    simp [groupRowsQ]
    decide
  exact ⟨hc, hp,
    extract_retrieval_order_and_relevance _ _ _ _ _ _ _ _ hc hp⟩

/-! ## Lemmas about the cache-layer hashes -/

/-- C3 counterexample (negation of the claim's order-sensitivity part):
`hash_df` sums the per-row digests with a commutative wrap-around sum, so
NO two row orderings of the same rows can yield different hash values,
whatever the per-row hash function is. -/
theorem hash_df_not_order_sensitive :
    ¬ ∃ (rowHash : QRow → Nat) (l₁ l₂ : List QRow),
      l₁.Perm l₂ ∧ hash_df rowHash l₁ ≠ hash_df rowHash l₂ := by
  rintro ⟨rowHash, l₁, l₂, hperm, hne⟩
  exact hne (by rw [hash_df, hash_df, (hperm.map rowHash).sum_eq])

/-- C3 (amended): `hash_df` is pure — recomputing on the same rows in the
same order yields the same value — and order-insensitive: every
reordering (permutation) of the rows yields the same value, because the
per-row digests are combined by a commutative `uint64` sum. -/
theorem hash_df_pure_and_order_insensitive (rowHash : QRow → Nat)
    (l₁ l₂ : List QRow) (hperm : l₁.Perm l₂) :
    hash_df rowHash l₁ = hash_df rowHash l₁ ∧
    hash_df rowHash l₁ = hash_df rowHash l₂ :=
  ⟨rfl, by rw [hash_df, hash_df, (hperm.map rowHash).sum_eq]⟩

theorem hash_df_pure_and_order_insensitive_witness :
    (([⟨1, 100, 1⟩, ⟨2, 200, 0⟩] : List QRow).Perm
      [⟨2, 200, 0⟩, ⟨1, 100, 1⟩]) ∧
    (hash_df (fun r => r.pid.natAbs) [⟨1, 100, 1⟩, ⟨2, 200, 0⟩] =
      hash_df (fun r => r.pid.natAbs) [⟨1, 100, 1⟩, ⟨2, 200, 0⟩] ∧
    hash_df (fun r => r.pid.natAbs) [⟨1, 100, 1⟩, ⟨2, 200, 0⟩] =
      hash_df (fun r => r.pid.natAbs) [⟨2, 200, 0⟩, ⟨1, 100, 1⟩]) :=
  ⟨by decide, hash_df_pure_and_order_insensitive _ _ _ (by decide)⟩

theorem strLe_trans : ∀ a b c : String, strLe a b → strLe b c →
    strLe a c := by
  intro a b c h1 h2
  simp only [strLe, decide_eq_true_eq] at h1 h2 ⊢
  exact le_trans h1 h2

theorem strLe_total : ∀ a b : String, strLe a b || strLe b a := by
  intro a b
  simp only [strLe, Bool.or_eq_true, decide_eq_true_eq]
  exact le_total a b

/-- C4: `hash_fe` is computed over the sorted registered feature names
only — permuting the name lists gives the same digest input, and
reparameterizing any feature while keeping its name leaves the hash
unchanged. -/
theorem hash_fe_depends_only_on_sorted_names (md5 : String → String)
    (fs₁ fs₂ : List Feature)
    (hperm : (featureNamesOf fs₁).Perm (featureNamesOf fs₂)) :
    hash_fe md5 (featureNamesOf fs₁) = hash_fe md5 (featureNamesOf fs₂) ∧
    (∀ g : Feature → Feature, (∀ f : Feature, (g f).name = f.name) →
      hash_fe md5 (featureNamesOf (fs₁.map g)) =
        hash_fe md5 (featureNamesOf fs₁)) := by
  constructor
  · rw [hash_fe, hash_fe]
    have hsort : (featureNamesOf fs₁).mergeSort strLe =
        (featureNamesOf fs₂).mergeSort strLe := by
      apply List.eq_of_perm_of_sorted (r := (· ≤ ·))
      · exact ((List.mergeSort_perm _ strLe).trans hperm).trans
          (List.mergeSort_perm _ strLe).symm
      · exact (List.sorted_mergeSort strLe_trans strLe_total _).imp
          (fun hab => by simpa [strLe] using hab)
      · exact (List.sorted_mergeSort strLe_trans strLe_total _).imp
          (fun hab => by simpa [strLe] using hab)
    rw [hsort]
  · intro g hg
    have hnames : featureNamesOf (fs₁.map g) = featureNamesOf fs₁ := by
      rw [featureNamesOf, featureNamesOf, List.map_map]
      exact List.map_congr_left (fun f _ => hg f)
    rw [hnames]

theorem hash_fe_depends_only_on_sorted_names_witness :
    (featureNamesOf [⟨"BM25", [1]⟩, ⟨"LMDir", []⟩]).Perm
      (featureNamesOf [⟨"LMDir", [2]⟩, ⟨"BM25", []⟩]) ∧
    (hash_fe (fun x => x) (featureNamesOf [⟨"BM25", [1]⟩, ⟨"LMDir", []⟩]) =
      hash_fe (fun x => x)
        (featureNamesOf [⟨"LMDir", [2]⟩, ⟨"BM25", []⟩]) ∧
    (∀ g : Feature → Feature, (∀ f : Feature, (g f).name = f.name) →
      hash_fe (fun x => x)
        (featureNamesOf (([⟨"BM25", [1]⟩, ⟨"LMDir", []⟩] :
          List Feature).map g)) =
        hash_fe (fun x => x)
          (featureNamesOf [⟨"BM25", [1]⟩, ⟨"LMDir", []⟩]))) :=
  ⟨by decide, hash_fe_depends_only_on_sorted_names _ _ _ (by decide)⟩

/-! ## Feature-set freeze, dispatcher submission, and task validation -/

theorem addAll_ok : ∀ (fs : List Feature) (st : FeatureExtractorState),
    st.submitted = false →
    FeatureExtractor.addAll st fs =
      .ok ⟨st.feature_name ++ featureNamesOf fs, false⟩
  | [], st, h => by
    cases st with
    | mk names submitted =>
      simp only at h
      subst h
      simp [FeatureExtractor.addAll, featureNamesOf]
  | f :: fs, st, h => by
    rw [FeatureExtractor.addAll, FeatureExtractor.add, if_neg (by simp [h])]
    simp only [h]
    rw [addAll_ok fs ⟨st.feature_name ++ [f.name], false⟩ rfl]
    simp [featureNamesOf]

/-- C6: `add` fails with a `ConfigurationError` once a job has been
submitted; before any submission it appends the feature's name, so
registering a feature list on a fresh extractor makes `feature_names()`
return the names in exact registration order. -/
theorem featureExtractor_add_freeze (st : FeatureExtractorState)
    (f : Feature) :
    (st.submitted = true →
      FeatureExtractor.add st f = .error "ConfigurationError") ∧
    (st.submitted = false →
      FeatureExtractor.add st f =
        .ok ⟨st.feature_name ++ [f.name], false⟩) ∧
    (∀ fs : List Feature,
      FeatureExtractor.addAll FeatureExtractor.init fs =
        .ok ⟨featureNamesOf fs, false⟩) := by
  refine ⟨?_, ?_, ?_⟩
  · intro h
    rw [FeatureExtractor.add, if_pos h]
  · intro h
    rw [FeatureExtractor.add, if_neg (by simp [h])]
    cases st with
    | mk names submitted =>
      simp only at h
      subst h
      rfl
  · intro fs
    simpa using addAll_ok fs FeatureExtractor.init rfl

theorem featureExtractor_add_freeze_witness :
    FeatureExtractor.add ⟨["BM25"], true⟩ ⟨"LMDir", [1000]⟩ =
      .error "ConfigurationError" ∧
    FeatureExtractor.add ⟨["BM25"], false⟩ ⟨"LMDir", [1000]⟩ =
      .ok ⟨["BM25", "LMDir"], false⟩ ∧
    FeatureExtractor.addAll FeatureExtractor.init
      [⟨"BM25", []⟩, ⟨"LMDir", [1000]⟩] = .ok ⟨["BM25", "LMDir"], false⟩ :=
  ⟨(featureExtractor_add_freeze ⟨["BM25"], true⟩ ⟨"LMDir", [1000]⟩).1 rfl,
   (featureExtractor_add_freeze ⟨["BM25"], false⟩ ⟨"LMDir", [1000]⟩).2.1 rfl,
   (featureExtractor_add_freeze ⟨["BM25"], false⟩
     ⟨"LMDir", [1000]⟩).2.2 [⟨"BM25", []⟩, ⟨"LMDir", [1000]⟩]⟩

/-- C7 (supporting evaluation): as checked in, `lazy_extract` takes a
query id, ONE token list and a document-id list, and the job it builds
carries exactly those three fields — there is no second token-list
variant anywhere in the `Job` it creates. -/
theorem lazy_extract_builds_single_token_job (qid : String)
    (query_tokens doc_ids : List String) :
    lazy_extract qid query_tokens doc_ids =
      ⟨qid, query_tokens, doc_ids⟩ ∧
    (lazy_extract qid query_tokens doc_ids).queryTokens = query_tokens :=
  ⟨rfl, rfl⟩

/-- C9: with no cached artifact for the key, an unrecognized task makes
`data_loader` raise `unknown parameters` without invoking the assembler —
the outcome is the same for every possible assembler — and similarly an
unrecognized task makes `dev_data_loader` raise without reading any
input. -/
theorem unknown_task_raises_before_extraction :
    (∀ (cache : String × Nat × String × String → Option ExtractedObj)
      (rowHash : QRow → Nat) (jarHash feHash task : String)
      (df : List QRow), task ≠ "train" → task ≠ "dev" →
      cache (task, hash_df rowHash df, jarHash, feHash) = none →
      ∀ extractFn : List QRow → List ORow × List Nat,
        data_loader cache extractFn rowHash jarHash feHash task df =
          .error "unknown parameters") ∧
    (∀ (dcache : String → Option (List QRow))
      (readTask : String → List QRow) (dtask : String),
      dtask ≠ "rerank" → dtask ≠ "anserini" → dtask ≠ "pygaggle" →
      dcache dtask = none →
      dev_data_loader dcache readTask dtask =
        .error "unknown parameters") := by
  constructor
  · intro cache rowHash jarHash feHash task df h1 h2 hmiss extractFn
    rw [data_loader, hmiss]
    rw [if_neg (by tauto)]
  · intro dcache readTask dtask h1 h2 h3 hmiss
    rw [dev_data_loader, hmiss]
    rw [if_neg (by tauto)]

theorem unknown_task_raises_before_extraction_witness :
    (∀ extractFn : List QRow → List ORow × List Nat,
      data_loader (fun _ => none) extractFn (fun _ => 0) "j" "f" "test"
        [] = .error "unknown parameters") ∧
    dev_data_loader (fun _ => none) (fun _ => []) "test" =
      .error "unknown parameters" :=
  ⟨unknown_task_raises_before_extraction.1 (fun _ => none) (fun _ => 0)
    "j" "f" "test" [] (by decide) (by decide) rfl,
   unknown_task_raises_before_extraction.2 (fun _ => none) (fun _ => [])
    "test" (by decide) (by decide) (by decide) rfl⟩
